import Mathlib

/-!
Verification of the meTasking CLI calendar renderer and incremental loader.

This file shallowly embeds, in Lean 4, the algorithmic core of the
repository:

* `_merge_ranges` and `WLCalCS.from_ranges` from
  `src/metaskingcli/commands/tui/calendar.py` (range merging and the
  per-cell glyph classifier);
* the label-placement scan of `WorkLogCalendarDay.render` from the same
  file;
* the cell-buffer construction of `RangeBar.__rich_console__` from
  `src/metaskingcli/commands/tui/range_bar.py` (modelled fallibly: an
  out-of-bounds list index, which raises `IndexError` in Python, is
  `none` here);
* the pagination state machine of `LogList` from
  `src/metaskingcli/commands/tui/work_log_list.py`
  (`reload_logs`, `load_more_logs`, `_add_logs`).

Python floats are modelled as rationals (`ℚ`); all inputs exercised below
are small dyadic rationals on which float arithmetic is exact.
-/

namespace MeTasking

/-! ## Range merging (`calendar.py`, `_merge_ranges`) -/

/-- One entry of the `ranges` lists handled by `calendar.py`:
a `(start, end, color)` triple (`tuple[float, float, str]` in the source). -/
abbrev TimeRange : Type := ℚ × ℚ × String

/-- The constant `DARK_BACKGROUND_FALLBACK = "grey27"` from `calendar.py`. -/
def DARK_BACKGROUND_FALLBACK : String := "grey27"

/-- The comparison used by `sorted(ranges, key=lambda r: r[0])`. -/
def rangeLE (a b : TimeRange) : Prop := a.1 ≤ b.1

instance : DecidableRel rangeLE := fun a b => inferInstanceAs (Decidable (a.1 ≤ b.1))

instance : IsTotal TimeRange rangeLE := ⟨fun a b => le_total a.1 b.1⟩

instance : IsTrans TimeRange rangeLE := ⟨fun _ _ _ hab hbc => le_trans hab hbc⟩

/-- The color update performed when a range is absorbed into the current
accumulator: `if color != next_color: color = DARK_BACKGROUND_FALLBACK`. -/
def absorbColor (c nc : String) : String :=
  if c ≠ nc then DARK_BACKGROUND_FALLBACK else c

/-- Absorbing one range into the sweep accumulator:
`end = max(end, next_end)` together with the color update. -/
def absorb (acc r : TimeRange) : TimeRange :=
  (acc.1, max acc.2.1 r.2.1, absorbColor acc.2.2 r.2.2)

/-- The sweep of `_merge_ranges` over the sorted list: the current
accumulator absorbs every following range whose start is `≤` its current
end (`if next_start <= end: ...; ranges.pop(i)`), and is emitted when the
next range starts strictly after its end (`else: break`). -/
def mergeLoop : TimeRange → List TimeRange → List TimeRange
  | acc, [] => [acc]
  | (s, e, c), (ns, ne, nc) :: rest =>
    if ns ≤ e then
      mergeLoop (s, max e ne, absorbColor c nc) rest
    else
      (s, e, c) :: mergeLoop (ns, ne, nc) rest

/-- The body of `_merge_ranges` after sorting: an empty input stays empty,
otherwise the sweep starts with the first range as accumulator. -/
def mergeSorted : List TimeRange → List TimeRange
  | [] => []
  | r :: rest => mergeLoop r rest

/-- The function `_merge_ranges` from `calendar.py`: sort by start (Python `sorted` is
stable; insertion sort with `rangeLE` is the same stable sort), then sweep. -/
def merge_ranges (l : List TimeRange) : List TimeRange :=
  mergeSorted (l.insertionSort rangeLE)

/-- A well-formed range: `start ≤ end`. -/
def goodRange (r : TimeRange) : Prop := r.1 ≤ r.2.1

instance : DecidablePred goodRange := fun r => inferInstanceAs (Decidable (r.1 ≤ r.2.1))

/-- Separation of adjacent merged ranges: the first ends strictly before
the second starts. -/
def sep (a b : TimeRange) : Prop := a.2.1 < b.1

instance : DecidableRel sep := fun a b => inferInstanceAs (Decidable (a.2.1 < b.1))

/-! ## Cell-state classifier (`calendar.py`, `WLCalCS`) -/

/-- The 18-variant cell-state enum `WLCalCS` of `calendar.py`. -/
inductive WLCalCS : Type
  | EMPTY
  | FULL
  | END_1
  | END_2
  | END_3
  | END_4
  | END_5
  | END_6
  | END_7
  | START_1
  | START_2
  | START_3
  | START_4
  | START_5
  | START_6
  | START_7
  | MIDDLE
  | FUZZY
deriving DecidableEq, Repr

/-- The method `WLCalCS.range_position` from `calendar.py`. -/
def WLCalCS.range_position : WLCalCS → ℚ
  | .EMPTY => 0
  | .FULL => 1
  | .END_1 => 1/8
  | .END_2 => 2/8
  | .END_3 => 3/8
  | .END_4 => 4/8
  | .END_5 => 5/8
  | .END_6 => 6/8
  | .END_7 => 7/8
  | .START_1 => 7/8
  | .START_2 => 6/8
  | .START_3 => 5/8
  | .START_4 => 4/8
  | .START_5 => 3/8
  | .START_6 => 2/8
  | .START_7 => 1/8
  | .MIDDLE => 1/2
  | .FUZZY => 1/2

/-- The tolerance `half_step = 1/16` from `WLCalCS.from_ranges`. -/
def half_step : ℚ := 1/16

/-- The single-range branch of `WLCalCS.from_ranges`: the if-chain ran when
merging produced exactly one range `(start, end, color)`. -/
def classifySingle (s e : ℚ) (c : String) : WLCalCS × String :=
  if s < half_step ∧ e ≥ 1 - half_step then (WLCalCS.FULL, c)
  else if s < half_step then
    if e ≥ WLCalCS.END_7.range_position - half_step then (WLCalCS.END_7, c)
    else if e ≥ WLCalCS.END_6.range_position - half_step then (WLCalCS.END_6, c)
    else if e ≥ WLCalCS.END_5.range_position - half_step then (WLCalCS.END_5, c)
    else if e ≥ WLCalCS.END_4.range_position - half_step then (WLCalCS.END_4, c)
    else if e ≥ WLCalCS.END_3.range_position - half_step then (WLCalCS.END_3, c)
    else if e ≥ WLCalCS.END_2.range_position - half_step then (WLCalCS.END_2, c)
    else if e ≥ WLCalCS.END_1.range_position - half_step then (WLCalCS.END_1, c)
    else (WLCalCS.EMPTY, c)
  else if e ≥ 1 - half_step then
    if s < WLCalCS.START_7.range_position + half_step then (WLCalCS.START_7, c)
    else if s < WLCalCS.START_6.range_position + half_step then (WLCalCS.START_6, c)
    else if s < WLCalCS.START_5.range_position + half_step then (WLCalCS.START_5, c)
    else if s < WLCalCS.START_4.range_position + half_step then (WLCalCS.START_4, c)
    else if s < WLCalCS.START_3.range_position + half_step then (WLCalCS.START_3, c)
    else if s < WLCalCS.START_2.range_position + half_step then (WLCalCS.START_2, c)
    else if s < WLCalCS.START_1.range_position + half_step then (WLCalCS.START_1, c)
    else (WLCalCS.EMPTY, c)
  else if s ≥ half_step ∧ s < WLCalCS.START_4.range_position + half_step ∧
      e ≥ WLCalCS.END_4.range_position - half_step ∧ e < 1 - half_step then
    (WLCalCS.MIDDLE, c)
  else (WLCalCS.FUZZY, c)

/-- The classifier `WLCalCS.from_ranges` from `calendar.py`: merge first, then classify by
the cardinality of the merged list (`len == 0` → `EMPTY`, `len != 1` →
`FUZZY`, otherwise the single-range if-chain). -/
def WLCalCS.from_ranges (ranges : List TimeRange) : WLCalCS × String :=
  match merge_ranges ranges with
  | [] => (WLCalCS.EMPTY, DARK_BACKGROUND_FALLBACK)
  | [(s, e, c)] => classifySingle s e c
  | _ => (WLCalCS.FUZZY, DARK_BACKGROUND_FALLBACK)

/-! ## Label placement (`calendar.py`, `WorkLogCalendarDay.render`) -/

/-- A label slot of `lines_texts`: `none` models `(_, None, _)` (free row),
`some (moved, name, color)` models an assigned label. -/
abbrev LabelSlot : Type := Option (Bool × String × String)

/-- The `while tstart < height` scan of `WorkLogCalendarDay.render` over the
rows at and below the starting row: place the label in the first free row,
with the `moved` flag set iff at least one occupied row was skipped; leave
the suffix unchanged past the placement; drop the label if no row is free. -/
def scanPlace (moved : Bool) (nm col : String) : List LabelSlot → List LabelSlot
  | [] => []
  | none :: rest => some (moved, nm, col) :: rest
  | some s :: rest => some s :: scanPlace true nm col rest

/-- Label placement for one range: the scan starts at row `ist`
(`tstart = istart`) and runs to the bottom of the grid
(`lines` has length `height` in `render`). -/
def placeLabel (lines : List LabelSlot) (ist : ℕ) (nm col : String) : List LabelSlot :=
  lines.take ist ++ scanPlace false nm col (lines.drop ist)

/-- The starting row of the label scan in `render`:
`istart = math.ceil(min(max(rstart * height, 0), height))`. -/
def labelRow (height : ℕ) (rstart : ℚ) : ℕ :=
  (Int.ceil (min (max (rstart * height) 0) (height : ℚ))).toNat

/-! ## Range bar (`range_bar.py`, `RangeBar.__rich_console__`) -/

/-- The `BarCS` enum of `range_bar.py`. -/
inductive BarCS : Type
  | EMPTY
  | FULL
  | LEFT
  | RIGHT
deriving DecidableEq, Repr

/-- The method `BarCS.merge` from `range_bar.py` (the final `raise` of the source is
unreachable: all four variants are covered). -/
def BarCS.merge : BarCS → BarCS → BarCS
  | .EMPTY, other => other
  | .FULL, _ => .FULL
  | .LEFT, .RIGHT => .FULL
  | .LEFT, .FULL => .FULL
  | .LEFT, _ => .LEFT
  | .RIGHT, .LEFT => .FULL
  | .RIGHT, .FULL => .FULL
  | .RIGHT, _ => .RIGHT

/-- Python `int(x)`: truncation toward zero. -/
def pyInt (q : ℚ) : ℤ := if 0 ≤ q then Int.floor q else Int.ceil q

/-- Python list assignment `content[i] = f(content[i])` for an index
computed as a Python `int`: in-bounds nonnegative indices update the list,
any other index is an error (`none`). Python additionally wraps indices in
`[-len, 0)`; no such index arises in the executions studied here, and
`IndexError` — the crash the totality claim rules out — is `none`. -/
def setCell (content : List BarCS) (i : ℤ) (f : BarCS → BarCS) : Option (List BarCS) :=
  if 0 ≤ i ∧ i.toNat < content.length then
    some (content.set i.toNat (f (content.getD i.toNat BarCS.EMPTY)))
  else
    none

/-- The `for i in range(start, end)` fill loop of `__rich_console__`,
starting at `i` for `n` iterations. -/
def fillRange (content : List BarCS) (i : ℤ) : ℕ → Option (List BarCS)
  | 0 => some content
  | n + 1 =>
    match setCell content i (fun b => b.merge BarCS.FULL) with
    | none => none
    | some c => fillRange c (i + 1) n

/-- Processing of one `highlight_range` by `RangeBar.__rich_console__`:
scale to `width`, clamp, write a `LEFT` half-cell when the fractional
underflow is `≥ 0.5`, write a `RIGHT` half-cell at `int(end) + 1` when the
fractional overflow is `≥ 0.5`, then fill the whole cells in between. -/
def applyRange (width : ℕ) (content : List BarCS) (r : ℚ × ℚ) : Option (List BarCS) := do
  let start0 : ℚ := max (r.1 * (width : ℚ)) 0
  let end0 : ℚ := min (r.2 * (width : ℚ)) (width : ℚ)
  let underflow : ℚ := Int.fract start0
  let overflow : ℚ := Int.fract end0
  let s0 : ℤ := pyInt start0
  let (content1, s1) ←
    if (1 : ℚ)/2 ≤ underflow then
      (setCell content s0 (fun b => b.merge BarCS.LEFT)).map (fun c => (c, s0 + 1))
    else
      pure (content, s0)
  let e1 : ℤ := pyInt end0
  let content2 ←
    if (1 : ℚ)/2 ≤ overflow then
      setCell content1 (e1 + 1) (fun b => b.merge BarCS.RIGHT)
    else
      pure content1
  fillRange content2 s1 (e1 - s1).toNat

/-- The cell-state buffer built by `RangeBar.__rich_console__` before glyph
selection: start from `width` `EMPTY` cells and process each highlighted
range in order; `none` models an `IndexError`. -/
def rangeBarContent (width : ℕ) (ranges : List (ℚ × ℚ)) : Option (List BarCS) :=
  ranges.foldlM (applyRange width) (List.replicate width BarCS.EMPTY)

/-! ## Incremental loader (`work_log_list.py`, `LogList`) -/

/-- The part of one fetched log record that the loader inspects: the
`WorkLog` widget built from it is `active` iff the log has records and its
last record has no end time; `_add_logs` filters on that flag. An `id`
field keeps distinct records distinguishable. -/
structure Log : Type where
  active : Bool
  id : ℕ
deriving DecidableEq, Repr

/-- The loader-relevant state of a `LogList` widget. `mounted` is the list
of `WorkLog` widgets mounted in the `.container-logs` container. -/
structure LogList : Type where
  logs_only_active : Option Bool
  logs_paging : Bool
  logs_reached_end : Bool
  logs_offset : ℕ
  mounted : List Log
  loading : Bool
deriving DecidableEq, Repr

/-- The page size `limit = 10` from `LogList.load_more_logs`. -/
def limit : ℕ := 10

/-- The method `LogList._add_logs` from `work_log_list.py`: a result delivered with a
captured offset different from the current one is discarded (`# Race
condition - ignore`); otherwise the offset advances by the page length,
`logs_reached_end` is set, and the page — filtered to non-active entries
when `logs_only_active is False` — is mounted at the end. -/
def add_logs (st : LogList) (at_offset : ℕ) (reached_end : Bool)
    (logs : List Log) : LogList :=
  if at_offset ≠ st.logs_offset then st
  else
    { st with
      logs_offset := st.logs_offset + logs.length
      logs_reached_end := reached_end
      mounted := st.mounted ++
        (if st.logs_only_active = some false then
          logs.filter (fun lg => !lg.active)
        else logs)
      loading := false }

/-- The data a dispatched fetch returns, by mode: the active log
(`get_active`), the full listing (`list_all`), or one page (`list_page`)
at the captured offset. -/
structure FetchEnv : Type where
  active_log : Option Log
  all_logs : List Log
  page : List Log

/-- The worker `LogList.load_more_logs` composed with the delivery of its result via
`_add_logs` (the dispatch thread runs them back to back when no reload
intervenes). Returns the new state and the captured offset of the issued
fetch — `none` when the loader is exhausted and returns before fetching.
The `reached_end` flag accompanying the page is `true` for the active-only
and non-paging modes, and `len(logs) < limit` for the paged mode. -/
def load_more_logs (st : LogList) (env : FetchEnv) : LogList × Option ℕ :=
  if st.logs_reached_end then (st, none)
  else if st.logs_only_active = some true then
    (add_logs st st.logs_offset true env.active_log.toList, some st.logs_offset)
  else if st.logs_paging = false then
    (add_logs st st.logs_offset true env.all_logs, some st.logs_offset)
  else
    (add_logs st st.logs_offset (decide (env.page.length < limit)) env.page,
      some st.logs_offset)

/-- The synchronous reset performed by `LogList.reload_logs` before it
triggers a new load: `loading = True`, `logs_reached_end = False`,
`logs_offset = 0`, and the mounted widgets are removed. -/
def reload_reset (st : LogList) : LogList :=
  { st with
    loading := true
    logs_reached_end := false
    logs_offset := 0
    mounted := [] }

/-- The method `LogList.reload_logs`: reset, then load. -/
def reload_logs (st : LogList) (env : FetchEnv) : LogList × Option ℕ :=
  load_more_logs (reload_reset st) env

/-- One paged load step driven by a feed: the state after `load_more_logs`
against the page `list_page` would return at the current offset. -/
def run : LogList → List (List Log) → LogList
  | st, [] => st
  | st, p :: ps =>
    run (load_more_logs st { active_log := none, all_logs := [], page := p }).1 ps

/-- The call `list_page(offset, limit)` on a feed modelled as the full server-side
log list: the slice of `lim` items starting at `offset`. -/
def list_page (feed : List Log) (offset lim : ℕ) : List Log :=
  (feed.drop offset).take lim

/-- One scroll-triggered load against a fixed feed, also accumulating the
raw items fetched so far (ghost state: the pages the API returned). -/
def load_step (feed : List Log) (s : LogList × List Log) : LogList × List Log :=
  if s.1.logs_reached_end then s
  else
    let page := list_page feed s.1.logs_offset limit
    ((load_more_logs s.1 { active_log := none, all_logs := [], page := page }).1,
      s.2 ++ page)

/-- Repeated (`n` successive) scroll-triggered loads against a fixed feed. -/
def runFeed (feed : List Log) : ℕ → (LogList × List Log) → LogList × List Log
  | 0, s => s
  | n + 1, s => runFeed feed n (load_step feed s)

/-- The initial state of a `LogList` constructed with `only_active=False`
and paging on, as after `reload_logs` reset it. -/
def onlyStoppedList : LogList :=
  { logs_only_active := some false
    logs_paging := true
    logs_reached_end := false
    logs_offset := 0
    mounted := []
    loading := true }

/-- The initial state of a `LogList` constructed with `only_active=None`
and paging on, as after `reload_logs` reset it. -/
def onlyActiveNoneList : LogList :=
  { logs_only_active := none
    logs_paging := true
    logs_reached_end := false
    logs_offset := 0
    mounted := []
    loading := true }

/-! ## Theorems -/

/-- Equation lemma for the sweep on a nonempty list. -/
theorem mergeLoop_cons (acc b : TimeRange) (rest : List TimeRange) :
    mergeLoop acc (b :: rest) =
      if b.1 ≤ acc.2.1 then mergeLoop (absorb acc b) rest
      else acc :: mergeLoop b rest := by
  rcases acc with ⟨s, e, c⟩
  rcases b with ⟨ns, ne, nc⟩
  simp [mergeLoop, absorb]

theorem mergeLoop_nil (acc : TimeRange) : mergeLoop acc [] = [acc] := by
  rcases acc with ⟨s, e, c⟩
  rfl

/-! Helper lemmas characterising each branch of `classifySingle`. -/

theorem cs_full (s e : ℚ) (c : String) (h1 : s < 1/16) (h2 : 1 - 1/16 ≤ e) :
    classifySingle s e c = (WLCalCS.FULL, c) := by
  unfold classifySingle
  simp only [half_step, WLCalCS.range_position]
  rw [if_pos ⟨h1, h2⟩]

theorem cs_end7 (s e : ℚ) (c : String) (h1 : s < 1/16) (hu : e < 1 - 1/16)
    (hl : 7/8 - 1/16 ≤ e) :
    classifySingle s e c = (WLCalCS.END_7, c) := by
  unfold classifySingle
  simp only [half_step, WLCalCS.range_position]
  rw [if_neg (by push_neg; intro _; linarith),
      if_pos h1,
      if_pos (by linarith)]

theorem cs_end6 (s e : ℚ) (c : String) (h1 : s < 1/16) (hu : e < 7/8 - 1/16)
    (hl : 6/8 - 1/16 ≤ e) :
    classifySingle s e c = (WLCalCS.END_6, c) := by
  unfold classifySingle
  simp only [half_step, WLCalCS.range_position]
  rw [if_neg (by push_neg; intro _; linarith),
      if_pos h1,
      if_neg (by push_neg; linarith),
      if_pos (by linarith)]

theorem cs_end5 (s e : ℚ) (c : String) (h1 : s < 1/16) (hu : e < 6/8 - 1/16)
    (hl : 5/8 - 1/16 ≤ e) :
    classifySingle s e c = (WLCalCS.END_5, c) := by
  unfold classifySingle
  simp only [half_step, WLCalCS.range_position]
  rw [if_neg (by push_neg; intro _; linarith),
      if_pos h1,
      if_neg (by push_neg; linarith),
      if_neg (by push_neg; linarith),
      if_pos (by linarith)]

theorem cs_end4 (s e : ℚ) (c : String) (h1 : s < 1/16) (hu : e < 5/8 - 1/16)
    (hl : 4/8 - 1/16 ≤ e) :
    classifySingle s e c = (WLCalCS.END_4, c) := by
  unfold classifySingle
  simp only [half_step, WLCalCS.range_position]
  rw [if_neg (by push_neg; intro _; linarith),
      if_pos h1,
      if_neg (by push_neg; linarith),
      if_neg (by push_neg; linarith),
      if_neg (by push_neg; linarith),
      if_pos (by linarith)]

theorem cs_end3 (s e : ℚ) (c : String) (h1 : s < 1/16) (hu : e < 4/8 - 1/16)
    (hl : 3/8 - 1/16 ≤ e) :
    classifySingle s e c = (WLCalCS.END_3, c) := by
  unfold classifySingle
  simp only [half_step, WLCalCS.range_position]
  rw [if_neg (by push_neg; intro _; linarith),
      if_pos h1,
      if_neg (by push_neg; linarith),
      if_neg (by push_neg; linarith),
      if_neg (by push_neg; linarith),
      if_neg (by push_neg; linarith),
      if_pos (by linarith)]

theorem cs_end2 (s e : ℚ) (c : String) (h1 : s < 1/16) (hu : e < 3/8 - 1/16)
    (hl : 2/8 - 1/16 ≤ e) :
    classifySingle s e c = (WLCalCS.END_2, c) := by
  unfold classifySingle
  simp only [half_step, WLCalCS.range_position]
  rw [if_neg (by push_neg; intro _; linarith),
      if_pos h1,
      if_neg (by push_neg; linarith),
      if_neg (by push_neg; linarith),
      if_neg (by push_neg; linarith),
      if_neg (by push_neg; linarith),
      if_neg (by push_neg; linarith),
      if_pos (by linarith)]

theorem cs_end1 (s e : ℚ) (c : String) (h1 : s < 1/16) (hu : e < 2/8 - 1/16)
    (hl : 1/8 - 1/16 ≤ e) :
    classifySingle s e c = (WLCalCS.END_1, c) := by
  unfold classifySingle
  simp only [half_step, WLCalCS.range_position]
  rw [if_neg (by push_neg; intro _; linarith),
      if_pos h1,
      if_neg (by push_neg; linarith),
      if_neg (by push_neg; linarith),
      if_neg (by push_neg; linarith),
      if_neg (by push_neg; linarith),
      if_neg (by push_neg; linarith),
      if_neg (by push_neg; linarith),
      if_pos (by linarith)]

theorem cs_end_empty (s e : ℚ) (c : String) (h1 : s < 1/16) (hu : e < 1/8 - 1/16) :
    classifySingle s e c = (WLCalCS.EMPTY, c) := by
  unfold classifySingle
  simp only [half_step, WLCalCS.range_position]
  rw [if_neg (by push_neg; intro _; linarith),
      if_pos h1,
      if_neg (by push_neg; linarith),
      if_neg (by push_neg; linarith),
      if_neg (by push_neg; linarith),
      if_neg (by push_neg; linarith),
      if_neg (by push_neg; linarith),
      if_neg (by push_neg; linarith),
      if_neg (by push_neg; linarith)]

theorem cs_start7 (s e : ℚ) (c : String) (h1 : 1/16 ≤ s) (h2 : 1 - 1/16 ≤ e)
    (hu : s < 1/8 + 1/16) :
    classifySingle s e c = (WLCalCS.START_7, c) := by
  unfold classifySingle
  simp only [half_step, WLCalCS.range_position]
  rw [if_neg (by push_neg; intro hs; linarith),
      if_neg (by push_neg; linarith),
      if_pos h2,
      if_pos (by linarith)]

theorem cs_start6 (s e : ℚ) (c : String) (h1 : 1/16 ≤ s) (h2 : 1 - 1/16 ≤ e)
    (hu : s < 2/8 + 1/16) (hl : 1/8 + 1/16 ≤ s) :
    classifySingle s e c = (WLCalCS.START_6, c) := by
  unfold classifySingle
  simp only [half_step, WLCalCS.range_position]
  rw [if_neg (by push_neg; intro hs; linarith),
      if_neg (by push_neg; linarith),
      if_pos h2,
      if_neg (by push_neg; linarith),
      if_pos (by linarith)]

theorem cs_start5 (s e : ℚ) (c : String) (h1 : 1/16 ≤ s) (h2 : 1 - 1/16 ≤ e)
    (hu : s < 3/8 + 1/16) (hl : 2/8 + 1/16 ≤ s) :
    classifySingle s e c = (WLCalCS.START_5, c) := by
  unfold classifySingle
  simp only [half_step, WLCalCS.range_position]
  rw [if_neg (by push_neg; intro hs; linarith),
      if_neg (by push_neg; linarith),
      if_pos h2,
      if_neg (by push_neg; linarith),
      if_neg (by push_neg; linarith),
      if_pos (by linarith)]

theorem cs_start4 (s e : ℚ) (c : String) (h1 : 1/16 ≤ s) (h2 : 1 - 1/16 ≤ e)
    (hu : s < 4/8 + 1/16) (hl : 3/8 + 1/16 ≤ s) :
    classifySingle s e c = (WLCalCS.START_4, c) := by
  unfold classifySingle
  simp only [half_step, WLCalCS.range_position]
  rw [if_neg (by push_neg; intro hs; linarith),
      if_neg (by push_neg; linarith),
      if_pos h2,
      if_neg (by push_neg; linarith),
      if_neg (by push_neg; linarith),
      if_neg (by push_neg; linarith),
      if_pos (by linarith)]

theorem cs_start3 (s e : ℚ) (c : String) (h1 : 1/16 ≤ s) (h2 : 1 - 1/16 ≤ e)
    (hu : s < 5/8 + 1/16) (hl : 4/8 + 1/16 ≤ s) :
    classifySingle s e c = (WLCalCS.START_3, c) := by
  unfold classifySingle
  simp only [half_step, WLCalCS.range_position]
  rw [if_neg (by push_neg; intro hs; linarith),
      if_neg (by push_neg; linarith),
      if_pos h2,
      if_neg (by push_neg; linarith),
      if_neg (by push_neg; linarith),
      if_neg (by push_neg; linarith),
      if_neg (by push_neg; linarith),
      if_pos (by linarith)]

theorem cs_start2 (s e : ℚ) (c : String) (h1 : 1/16 ≤ s) (h2 : 1 - 1/16 ≤ e)
    (hu : s < 6/8 + 1/16) (hl : 5/8 + 1/16 ≤ s) :
    classifySingle s e c = (WLCalCS.START_2, c) := by
  unfold classifySingle
  simp only [half_step, WLCalCS.range_position]
  rw [if_neg (by push_neg; intro hs; linarith),
      if_neg (by push_neg; linarith),
      if_pos h2,
      if_neg (by push_neg; linarith),
      if_neg (by push_neg; linarith),
      if_neg (by push_neg; linarith),
      if_neg (by push_neg; linarith),
      if_neg (by push_neg; linarith),
      if_pos (by linarith)]

theorem cs_start1 (s e : ℚ) (c : String) (h1 : 1/16 ≤ s) (h2 : 1 - 1/16 ≤ e)
    (hu : s < 7/8 + 1/16) (hl : 6/8 + 1/16 ≤ s) :
    classifySingle s e c = (WLCalCS.START_1, c) := by
  unfold classifySingle
  simp only [half_step, WLCalCS.range_position]
  rw [if_neg (by push_neg; intro hs; linarith),
      if_neg (by push_neg; linarith),
      if_pos h2,
      if_neg (by push_neg; linarith),
      if_neg (by push_neg; linarith),
      if_neg (by push_neg; linarith),
      if_neg (by push_neg; linarith),
      if_neg (by push_neg; linarith),
      if_neg (by push_neg; linarith),
      if_pos (by linarith)]

theorem cs_start_empty (s e : ℚ) (c : String) (h2 : 1 - 1/16 ≤ e)
    (hl : 7/8 + 1/16 ≤ s) :
    classifySingle s e c = (WLCalCS.EMPTY, c) := by
  unfold classifySingle
  simp only [half_step, WLCalCS.range_position]
  rw [if_neg (by push_neg; intro hs; linarith),
      if_neg (by push_neg; linarith),
      if_pos h2,
      if_neg (by push_neg; linarith),
      if_neg (by push_neg; linarith),
      if_neg (by push_neg; linarith),
      if_neg (by push_neg; linarith),
      if_neg (by push_neg; linarith),
      if_neg (by push_neg; linarith),
      if_neg (by push_neg; linarith)]

theorem cs_middle (s e : ℚ) (c : String) (h1 : 1/16 ≤ s) (h2 : s < 4/8 + 1/16)
    (h3 : 4/8 - 1/16 ≤ e) (h4 : e < 1 - 1/16) :
    classifySingle s e c = (WLCalCS.MIDDLE, c) := by
  unfold classifySingle
  simp only [half_step, WLCalCS.range_position]
  rw [if_neg (by push_neg; intro hs; linarith), if_neg (by push_neg; linarith),
      if_neg (by push_neg; linarith), if_pos ⟨h1, h2, h3, h4⟩]

theorem cs_fuzzy (s e : ℚ) (c : String) (h1 : 1/16 ≤ s) (h4 : e < 1 - 1/16)
    (hno : ¬(s < 4/8 + 1/16 ∧ 4/8 - 1/16 ≤ e)) :
    classifySingle s e c = (WLCalCS.FUZZY, c) := by
  unfold classifySingle
  simp only [half_step, WLCalCS.range_position]
  push_neg at hno
  rw [if_neg (by push_neg; intro _; linarith), if_neg (by push_neg; linarith),
      if_neg (by push_neg; linarith),
      if_neg (by push_neg; intro _ hb hc; linarith [hno hb])]

/-- Reduction of `from_ranges` when merging yields exactly one range. -/
theorem from_ranges_single (l : List TimeRange) (s e : ℚ) (c : String)
    (h : merge_ranges l = [(s, e, c)]) :
    WLCalCS.from_ranges l = classifySingle s e c := by
  unfold WLCalCS.from_ranges
  rw [h]

/-- C2 (single-range classification): when merging yields exactly one range
`[s, e]`, `from_ranges` returns `FULL` for `s` within the half-step of `0`
and `e` within the half-step of `1`; for `s ≈ 0` and `e` strictly inside it
returns the `END_k` found by scanning `k = 7` down to `1` and taking the
first with `e ≥ k/8 - 1/16`, and `EMPTY` when no `k` qualifies;
symmetrically a `START_k` for `e ≈ 1`; `MIDDLE` when both endpoints are
strictly inside with `s` in the left half and `e` in the right half (within
tolerance); `FUZZY` for every other single-range shape. In particular
`classify([(0, 1/2)])` is `END_4` and `classify([(1/2, 1)])` is `START_4`. -/
theorem single_range_classification (l : List TimeRange) (s e : ℚ) (c : String)
    (h : merge_ranges l = [(s, e, c)]) :
    (s < 1/16 → 1 - 1/16 ≤ e → WLCalCS.from_ranges l = (WLCalCS.FULL, c)) ∧
    (s < 1/16 → e < 1 - 1/16 →
      ((7/8 - 1/16 ≤ e → WLCalCS.from_ranges l = (WLCalCS.END_7, c)) ∧
       (e < 7/8 - 1/16 → 6/8 - 1/16 ≤ e → WLCalCS.from_ranges l = (WLCalCS.END_6, c)) ∧
       (e < 6/8 - 1/16 → 5/8 - 1/16 ≤ e → WLCalCS.from_ranges l = (WLCalCS.END_5, c)) ∧
       (e < 5/8 - 1/16 → 4/8 - 1/16 ≤ e → WLCalCS.from_ranges l = (WLCalCS.END_4, c)) ∧
       (e < 4/8 - 1/16 → 3/8 - 1/16 ≤ e → WLCalCS.from_ranges l = (WLCalCS.END_3, c)) ∧
       (e < 3/8 - 1/16 → 2/8 - 1/16 ≤ e → WLCalCS.from_ranges l = (WLCalCS.END_2, c)) ∧
       (e < 2/8 - 1/16 → 1/8 - 1/16 ≤ e → WLCalCS.from_ranges l = (WLCalCS.END_1, c)) ∧
       (e < 1/8 - 1/16 → WLCalCS.from_ranges l = (WLCalCS.EMPTY, c)))) ∧
    (1/16 ≤ s → 1 - 1/16 ≤ e →
      ((s < 1/8 + 1/16 → WLCalCS.from_ranges l = (WLCalCS.START_7, c)) ∧
       (1/8 + 1/16 ≤ s → s < 2/8 + 1/16 → WLCalCS.from_ranges l = (WLCalCS.START_6, c)) ∧
       (2/8 + 1/16 ≤ s → s < 3/8 + 1/16 → WLCalCS.from_ranges l = (WLCalCS.START_5, c)) ∧
       (3/8 + 1/16 ≤ s → s < 4/8 + 1/16 → WLCalCS.from_ranges l = (WLCalCS.START_4, c)) ∧
       (4/8 + 1/16 ≤ s → s < 5/8 + 1/16 → WLCalCS.from_ranges l = (WLCalCS.START_3, c)) ∧
       (5/8 + 1/16 ≤ s → s < 6/8 + 1/16 → WLCalCS.from_ranges l = (WLCalCS.START_2, c)) ∧
       (6/8 + 1/16 ≤ s → s < 7/8 + 1/16 → WLCalCS.from_ranges l = (WLCalCS.START_1, c)) ∧
       (7/8 + 1/16 ≤ s → WLCalCS.from_ranges l = (WLCalCS.EMPTY, c)))) ∧
    (1/16 ≤ s → s < 4/8 + 1/16 → 4/8 - 1/16 ≤ e → e < 1 - 1/16 →
      WLCalCS.from_ranges l = (WLCalCS.MIDDLE, c)) ∧
    (1/16 ≤ s → e < 1 - 1/16 → ¬(s < 4/8 + 1/16 ∧ 4/8 - 1/16 ≤ e) →
      WLCalCS.from_ranges l = (WLCalCS.FUZZY, c)) ∧
    WLCalCS.from_ranges [((0 : ℚ), 1/2, c)] = (WLCalCS.END_4, c) ∧
    WLCalCS.from_ranges [((1 : ℚ)/2, 1, c)] = (WLCalCS.START_4, c) := by
  have hf := from_ranges_single l s e c h
  refine ⟨fun h1 h2 => ?_, fun h1 h2 => ?_, fun h1 h2 => ?_,
    fun h1 h2 h3 h4 => ?_, fun h1 h2 h3 => ?_, ?_, ?_⟩
  · rw [hf]; exact cs_full s e c h1 h2
  · refine ⟨fun ha => ?_, fun ha hb => ?_, fun ha hb => ?_, fun ha hb => ?_,
      fun ha hb => ?_, fun ha hb => ?_, fun ha hb => ?_, fun ha => ?_⟩
    · rw [hf]; exact cs_end7 s e c h1 h2 ha
    · rw [hf]; exact cs_end6 s e c h1 ha hb
    · rw [hf]; exact cs_end5 s e c h1 ha hb
    · rw [hf]; exact cs_end4 s e c h1 ha hb
    · rw [hf]; exact cs_end3 s e c h1 ha hb
    · rw [hf]; exact cs_end2 s e c h1 ha hb
    · rw [hf]; exact cs_end1 s e c h1 ha hb
    · rw [hf]; exact cs_end_empty s e c h1 ha
  · refine ⟨fun ha => ?_, fun ha hb => ?_, fun ha hb => ?_, fun ha hb => ?_,
      fun ha hb => ?_, fun ha hb => ?_, fun ha hb => ?_, fun ha => ?_⟩
    · rw [hf]; exact cs_start7 s e c h1 h2 ha
    · rw [hf]; exact cs_start6 s e c h1 h2 hb ha
    · rw [hf]; exact cs_start5 s e c h1 h2 hb ha
    · rw [hf]; exact cs_start4 s e c h1 h2 hb ha
    · rw [hf]; exact cs_start3 s e c h1 h2 hb ha
    · rw [hf]; exact cs_start2 s e c h1 h2 hb ha
    · rw [hf]; exact cs_start1 s e c h1 h2 hb ha
    · rw [hf]; exact cs_start_empty s e c h2 ha
  · rw [hf]; exact cs_middle s e c h1 h2 h3 h4
  · rw [hf]; exact cs_fuzzy s e c h1 h2 h3
  · rw [from_ranges_single [((0 : ℚ), 1/2, c)] 0 (1/2) c rfl]
    exact cs_end4 0 (1/2) c (by norm_num) (by norm_num) (by norm_num)
  · rw [from_ranges_single [((1 : ℚ)/2, 1, c)] (1/2) 1 c rfl]
    exact cs_start4 (1/2) 1 c (by norm_num) (by norm_num) (by norm_num) (by norm_num)

/-- Witness for `single_range_classification` at a concrete merged list. -/
theorem single_range_classification_witness :
    WLCalCS.from_ranges [((0 : ℚ), 1/2, "a")] = (WLCalCS.END_4, "a") :=
  (single_range_classification [((0 : ℚ), 1/2, "a")] 0 (1/2) "a" rfl).2.2.2.2.2.1

/-- Structure of one sweep run: the accumulator keeps its start, its end
only grows, and the emitted list is separated and element-wise well
formed. -/
theorem mergeLoop_spec :
    ∀ (rest : List TimeRange) (s e : ℚ) (c : String), s ≤ e →
      (∀ r ∈ rest, goodRange r) →
      ∃ e' c' t, mergeLoop (s, e, c) rest = (s, e', c') :: t ∧ e ≤ e' ∧
        List.Chain' sep ((s, e', c') :: t) ∧
        ∀ r ∈ (s, e', c') :: t, goodRange r := by
  intro rest
  induction rest with
  | nil =>
    intro s e c hse _
    refine ⟨e, c, [], mergeLoop_nil _, le_refl e, by simp, ?_⟩
    intro r hr
    simp only [List.mem_singleton] at hr
    subst hr
    exact hse
  | cons b rest ih =>
    intro s e c hse hg
    rw [mergeLoop_cons]
    by_cases hb : b.1 ≤ (s, e, c).2.1
    · rw [if_pos hb]
      obtain ⟨e', c', t, heq, hle, hchain, hgood⟩ :=
        ih s (max e b.2.1) (absorbColor c b.2.2) (le_trans hse (le_max_left _ _))
          (fun r hr => hg r (List.mem_cons_of_mem _ hr))
      exact ⟨e', c', t, heq, le_trans (le_max_left _ _) hle, hchain, hgood⟩
    · rw [if_neg hb]
      obtain ⟨e', c', t, heq, hle, hchain, hgood⟩ :=
        ih b.1 b.2.1 b.2.2 (hg b (List.mem_cons_self _ _))
          (fun r hr => hg r (List.mem_cons_of_mem _ hr))
      have heq' : mergeLoop b rest = (b.1, e', c') :: t := heq
      refine ⟨e, c, (b.1, e', c') :: t, by rw [heq'], le_refl e, ?_, ?_⟩
      · refine List.chain'_cons.mpr ⟨?_, hchain⟩
        exact lt_of_not_le hb
      · intro r hr
        rcases List.mem_cons.mp hr with rfl | hr
        · exact hse
        · exact hgood r hr

/-- The sweep applied to any list of well-formed ranges yields a separated
list of well-formed ranges. -/
theorem mergeSorted_spec (l : List TimeRange) (hg : ∀ r ∈ l, goodRange r) :
    List.Chain' sep (mergeSorted l) ∧ ∀ r ∈ mergeSorted l, goodRange r := by
  cases l with
  | nil => simp [mergeSorted]
  | cons a rest =>
    obtain ⟨e', c', t, heq, _, hchain, hgood⟩ :=
      mergeLoop_spec rest a.1 a.2.1 a.2.2 (hg a (List.mem_cons_self _ _))
        (fun r hr => hg r (List.mem_cons_of_mem _ hr))
    have heq' : mergeSorted (a :: rest) = (a.1, e', c') :: t := heq
    rw [heq']
    exact ⟨hchain, hgood⟩

/-- A separated list of well-formed ranges is sorted by start. -/
theorem chain_sep_sorted :
    ∀ (m : List TimeRange), List.Chain' sep m → (∀ r ∈ m, goodRange r) →
      List.Sorted rangeLE m := by
  intro m
  induction m with
  | nil => intro _ _; exact List.sorted_nil
  | cons a t ih =>
    intro hchain hg
    have ht : List.Sorted rangeLE t :=
      ih hchain.tail (fun r hr => hg r (List.mem_cons_of_mem _ hr))
    rw [List.sorted_cons]
    refine ⟨?_, ht⟩
    intro b hb
    cases t with
    | nil => simp at hb
    | cons hd t' =>
      have hsep : sep a hd := (List.chain'_cons.mp hchain).1
      have hga : goodRange a := hg a (List.mem_cons_self _ _)
      have hahd : a.1 ≤ hd.1 := le_of_lt (lt_of_le_of_lt hga hsep)
      rcases List.mem_cons.mp hb with rfl | hb'
      · exact hahd
      · exact le_trans hahd ((List.sorted_cons.mp ht).1 b hb')

/-- C3 (merge postcondition): on inputs whose ranges all satisfy
`start ≤ end`, `_merge_ranges` returns a list sorted by start in which
every adjacent pair is separated (`a.end < b.start`, i.e. no adjacent
`a.end ≥ b.start`), and the empty input maps to the empty list. -/
theorem merge_postcondition (l : List TimeRange) (h : ∀ r ∈ l, goodRange r) :
    List.Sorted rangeLE (merge_ranges l) ∧
    List.Chain' sep (merge_ranges l) ∧
    merge_ranges [] = [] := by
  have hg' : ∀ r ∈ l.insertionSort rangeLE, goodRange r :=
    fun r hr => h r ((List.perm_insertionSort rangeLE l).subset hr)
  have hspec := mergeSorted_spec (l.insertionSort rangeLE) hg'
  exact ⟨chain_sep_sorted _ hspec.1 hspec.2, hspec.1, rfl⟩

/-- Witness for `merge_postcondition` on a concrete unsorted overlapping
input. -/
theorem merge_postcondition_witness :
    (∀ r ∈ [((5 : ℚ), 7, "b"), ((0 : ℚ), 6, "a")], goodRange r) ∧
    List.Sorted rangeLE (merge_ranges [((5 : ℚ), 7, "b"), ((0 : ℚ), 6, "a")]) ∧
    List.Chain' sep (merge_ranges [((5 : ℚ), 7, "b"), ((0 : ℚ), 6, "a")]) :=
  ⟨by decide, (merge_postcondition _ (by decide)).1,
    (merge_postcondition _ (by decide)).2.1⟩

/-- The color fold is commutative. -/
theorem absorbColor_comm (a b : String) : absorbColor a b = absorbColor b a := by
  by_cases h : a = b
  · subst h; rfl
  · simp [absorbColor, h, Ne.symm h]

/-- Two successive color absorptions commute. -/
theorem absorbColor_left_comm (c a b : String) :
    absorbColor (absorbColor c a) b = absorbColor (absorbColor c b) a := by
  unfold absorbColor
  split_ifs <;> simp_all

/-- Two successive range absorptions commute. -/
theorem absorb_left_comm (acc a b : TimeRange) :
    absorb (absorb acc a) b = absorb (absorb acc b) a := by
  simp only [absorb, absorbColor_left_comm]
  rw [show ∀ x y z : ℚ, max (max x y) z = max (max x z) y from fun x y z => sup_right_comm x y z]

/-- Absorption of ranges with equal starts is commutative. -/
theorem absorb_comm_of_eq_start (a b : TimeRange) (h : a.1 = b.1) :
    absorb a b = absorb b a := by
  simp only [absorb]
  rw [h, max_comm, absorbColor_comm]

/-- Pulling an element that the accumulator can already absorb out of a
sorted worklist does not change the sweep's result. -/
theorem mergeLoop_extract :
    ∀ (u v : List TimeRange) (a acc : TimeRange),
      List.Sorted rangeLE (u ++ a :: v) → a.1 ≤ acc.2.1 →
      mergeLoop acc (u ++ a :: v) = mergeLoop (absorb acc a) (u ++ v) := by
  intro u
  induction u with
  | nil =>
    intro v a acc _ hae
    rw [List.nil_append, List.nil_append, mergeLoop_cons, if_pos hae]
  | cons b u' ih =>
    intro v a acc hsorted hae
    have hba : b.1 ≤ a.1 :=
      (List.sorted_cons.mp hsorted).1 a
        (List.mem_append_right u' (List.mem_cons_self a v))
    rw [List.cons_append, List.cons_append, mergeLoop_cons,
      if_pos (le_trans hba hae),
      ih v a (absorb acc b) hsorted.of_cons
        (le_trans hae (le_max_left _ _)),
      absorb_left_comm, mergeLoop_cons,
      if_pos (show b.1 ≤ (absorb acc a).2.1 from
        le_trans (le_trans hba hae) (le_max_left _ _))]

/-- The sweep depends on a sorted worklist of well-formed ranges only
through its multiset of elements. -/
theorem mergeLoop_perm :
    ∀ (n : ℕ) (l₁ l₂ : List TimeRange), l₁.length ≤ n → l₁.Perm l₂ →
      List.Sorted rangeLE l₁ → List.Sorted rangeLE l₂ →
      (∀ r ∈ l₁, goodRange r) →
      ∀ acc : TimeRange, acc.1 ≤ acc.2.1 →
        mergeLoop acc l₁ = mergeLoop acc l₂ := by
  intro n
  induction n with
  | zero =>
    intro l₁ l₂ hlen hperm _ _ _ acc _
    have h₁ : l₁ = [] := List.length_eq_zero.mp (Nat.le_zero.mp hlen)
    subst h₁
    rw [hperm.symm.eq_nil]
  | succ n ih =>
    intro l₁ l₂ hlen hperm hs₁ hs₂ hg acc hacc
    cases l₁ with
    | nil => rw [hperm.symm.eq_nil]
    | cons a t₁ =>
      have ha₂ : a ∈ l₂ := hperm.subset (List.mem_cons_self a t₁)
      by_cases habs : a.1 ≤ acc.2.1
      · obtain ⟨u, v, hl₂⟩ := List.append_of_mem ha₂
        subst hl₂
        rw [mergeLoop_cons, if_pos habs, mergeLoop_extract u v a acc hs₂ habs]
        have hp : t₁.Perm (u ++ v) :=
          ((hperm.trans List.perm_middle)).cons_inv
        exact ih t₁ (u ++ v) (Nat.succ_le_succ_iff.mp hlen) hp
          hs₁.of_cons
          (hs₂.sublist
            (List.Sublist.append (List.Sublist.refl u) (List.sublist_cons_self a v)))
          (fun r hr => hg r (List.mem_cons_of_mem _ hr))
          (absorb acc a) (le_trans hacc (le_max_left _ _))
      · cases l₂ with
        | nil => exact absurd hperm.eq_nil (by simp)
        | cons b t₂ =>
          have hab : a.1 = b.1 := by
            apply le_antisymm
            · rcases List.mem_cons.mp (hperm.symm.subset (List.mem_cons_self b t₂)) with h | h
              · simp [h]
              · exact (List.sorted_cons.mp hs₁).1 b h
            · rcases List.mem_cons.mp ha₂ with h | h
              · simp [h]
              · exact (List.sorted_cons.mp hs₂).1 a h
          rw [mergeLoop_cons, if_neg habs, mergeLoop_cons,
            if_neg (show ¬b.1 ≤ acc.2.1 by rw [← hab]; exact habs)]
          congr 1
          by_cases haeq : a = b
          · subst haeq
            exact ih t₁ t₂ (Nat.succ_le_succ_iff.mp hlen) hperm.cons_inv
              hs₁.of_cons hs₂.of_cons
              (fun r hr => hg r (List.mem_cons_of_mem _ hr))
              a (hg a (List.mem_cons_self _ _))
          · have hbt₁ : b ∈ t₁ := by
              rcases List.mem_cons.mp (hperm.symm.subset (List.mem_cons_self b t₂)) with h | h
              · exact absurd h.symm haeq
              · exact h
            have hat₂ : a ∈ t₂ := by
              rcases List.mem_cons.mp ha₂ with h | h
              · exact absurd h haeq
              · exact h
            have hga : goodRange a := hg a (List.mem_cons_self _ _)
            have hgb : goodRange b := hg b (List.mem_cons_of_mem _ hbt₁)
            obtain ⟨u₁, v₁, h₁⟩ := List.append_of_mem hbt₁
            obtain ⟨u₂, v₂, h₂⟩ := List.append_of_mem hat₂
            subst h₁
            subst h₂
            rw [mergeLoop_extract u₁ v₁ b a hs₁.of_cons
              (show b.1 ≤ a.2.1 by rw [← hab]; exact hga)]
            rw [mergeLoop_extract u₂ v₂ a b hs₂.of_cons
              (show a.1 ≤ b.2.1 by rw [hab]; exact hgb)]
            rw [absorb_comm_of_eq_start a b hab]
            have hp : (u₁ ++ v₁).Perm (u₂ ++ v₂) := by
              have e₁ : (a :: (u₁ ++ b :: v₁)).Perm (a :: b :: (u₁ ++ v₁)) :=
                List.perm_middle.cons a
              have e₂ : (b :: (u₂ ++ a :: v₂)).Perm (b :: a :: (u₂ ++ v₂)) :=
                List.perm_middle.cons b
              have e₃ : (b :: a :: (u₂ ++ v₂)).Perm (a :: b :: (u₂ ++ v₂)) :=
                List.Perm.swap a b _
              exact ((e₁.symm.trans (hperm.trans (e₂.trans e₃))).cons_inv).cons_inv
            refine ih (u₁ ++ v₁) (u₂ ++ v₂) ?_ hp
              (hs₁.of_cons.sublist
                (List.Sublist.append (List.Sublist.refl u₁) (List.sublist_cons_self b v₁)))
              (hs₂.of_cons.sublist
                (List.Sublist.append (List.Sublist.refl u₂) (List.sublist_cons_self a v₂)))
              (fun r hr => hg r (List.mem_cons_of_mem _
                ((List.Sublist.append (List.Sublist.refl u₁)
                  (List.sublist_cons_self b v₁)).subset hr)))
              (absorb b a)
              (le_trans hgb (le_max_left _ _))
            simp only [List.length_append, List.length_cons] at hlen ⊢
            omega

/-- The full sweep (first element as accumulator) is invariant under
permutations of a sorted worklist. -/
theorem mergeSorted_perm (l₁ l₂ : List TimeRange) (hperm : l₁.Perm l₂)
    (hs₁ : List.Sorted rangeLE l₁) (hs₂ : List.Sorted rangeLE l₂)
    (hg : ∀ r ∈ l₁, goodRange r) :
    mergeSorted l₁ = mergeSorted l₂ := by
  cases l₁ with
  | nil => rw [hperm.symm.eq_nil]
  | cons a t₁ =>
    have ha₂ : a ∈ l₂ := hperm.subset (List.mem_cons_self a t₁)
    cases l₂ with
    | nil => exact absurd hperm.eq_nil (by simp)
    | cons b t₂ =>
      have hab : a.1 = b.1 := by
        apply le_antisymm
        · rcases List.mem_cons.mp (hperm.symm.subset (List.mem_cons_self b t₂)) with h | h
          · simp [h]
          · exact (List.sorted_cons.mp hs₁).1 b h
        · rcases List.mem_cons.mp ha₂ with h | h
          · simp [h]
          · exact (List.sorted_cons.mp hs₂).1 a h
      show mergeLoop a t₁ = mergeLoop b t₂
      by_cases haeq : a = b
      · subst haeq
        exact mergeLoop_perm t₁.length t₁ t₂ le_rfl hperm.cons_inv
          hs₁.of_cons hs₂.of_cons
          (fun r hr => hg r (List.mem_cons_of_mem _ hr))
          a (hg a (List.mem_cons_self _ _))
      · have hbt₁ : b ∈ t₁ := by
          rcases List.mem_cons.mp (hperm.symm.subset (List.mem_cons_self b t₂)) with h | h
          · exact absurd h.symm haeq
          · exact h
        have hat₂ : a ∈ t₂ := by
          rcases List.mem_cons.mp ha₂ with h | h
          · exact absurd h haeq
          · exact h
        have hga : goodRange a := hg a (List.mem_cons_self _ _)
        have hgb : goodRange b := hg b (List.mem_cons_of_mem _ hbt₁)
        obtain ⟨u₁, v₁, h₁⟩ := List.append_of_mem hbt₁
        obtain ⟨u₂, v₂, h₂⟩ := List.append_of_mem hat₂
        subst h₁
        subst h₂
        rw [mergeLoop_extract u₁ v₁ b a hs₁.of_cons
          (show b.1 ≤ a.2.1 by rw [← hab]; exact hga)]
        rw [mergeLoop_extract u₂ v₂ a b hs₂.of_cons
          (show a.1 ≤ b.2.1 by rw [hab]; exact hgb)]
        rw [absorb_comm_of_eq_start a b hab]
        have hp : (u₁ ++ v₁).Perm (u₂ ++ v₂) := by
          have e₁ : (a :: (u₁ ++ b :: v₁)).Perm (a :: b :: (u₁ ++ v₁)) :=
            List.perm_middle.cons a
          have e₂ : (b :: (u₂ ++ a :: v₂)).Perm (b :: a :: (u₂ ++ v₂)) :=
            List.perm_middle.cons b
          have e₃ : (b :: a :: (u₂ ++ v₂)).Perm (a :: b :: (u₂ ++ v₂)) :=
            List.Perm.swap a b _
          exact ((e₁.symm.trans (hperm.trans (e₂.trans e₃))).cons_inv).cons_inv
        exact mergeLoop_perm (u₁ ++ v₁).length (u₁ ++ v₁) (u₂ ++ v₂) le_rfl hp
          (hs₁.of_cons.sublist
            (List.Sublist.append (List.Sublist.refl u₁) (List.sublist_cons_self b v₁)))
          (hs₂.of_cons.sublist
            (List.Sublist.append (List.Sublist.refl u₂) (List.sublist_cons_self a v₂)))
          (fun r hr => hg r (List.mem_cons_of_mem _
            ((List.Sublist.append (List.Sublist.refl u₁)
              (List.sublist_cons_self b v₁)).subset hr)))
          (absorb b a)
          (le_trans hgb (le_max_left _ _))

/-- The sweep leaves an already separated list unchanged. -/
theorem mergeLoop_of_chain :
    ∀ (t : List TimeRange) (a : TimeRange), List.Chain' sep (a :: t) →
      mergeLoop a t = a :: t := by
  intro t
  induction t with
  | nil => intro a _; exact mergeLoop_nil a
  | cons b t' ih =>
    intro a hc
    have hsep : sep a b := (List.chain'_cons.mp hc).1
    rw [mergeLoop_cons, if_neg (not_le.mpr hsep), ih b (List.chain'_cons.mp hc).2]

/-- The full sweep leaves an already separated list unchanged. -/
theorem mergeSorted_of_chain (m : List TimeRange) (hc : List.Chain' sep m) :
    mergeSorted m = m := by
  cases m with
  | nil => rfl
  | cons a t => exact mergeLoop_of_chain t a hc

/-- C9 (merge algebra): on inputs whose ranges all satisfy `start ≤ end`,
`_merge_ranges` is idempotent, and its result does not depend on the input
order: any permutation of the input merges to the same list. -/
theorem merge_algebra (x x' : List TimeRange) (hx : ∀ r ∈ x, goodRange r)
    (hperm : x'.Perm x) :
    merge_ranges (merge_ranges x) = merge_ranges x ∧
    merge_ranges x' = merge_ranges x := by
  constructor
  · have hg' : ∀ r ∈ x.insertionSort rangeLE, goodRange r :=
      fun r hr => hx r ((List.perm_insertionSort rangeLE x).subset hr)
    have h1 := mergeSorted_spec (x.insertionSort rangeLE) hg'
    have hsorted : List.Sorted rangeLE (merge_ranges x) :=
      chain_sep_sorted _ h1.1 h1.2
    show mergeSorted ((merge_ranges x).insertionSort rangeLE) = merge_ranges x
    rw [hsorted.insertionSort_eq]
    exact mergeSorted_of_chain _ h1.1
  · have hp : (x'.insertionSort rangeLE).Perm (x.insertionSort rangeLE) :=
      (List.perm_insertionSort rangeLE x').trans
        (hperm.trans (List.perm_insertionSort rangeLE x).symm)
    exact mergeSorted_perm _ _ hp (List.sorted_insertionSort rangeLE x')
      (List.sorted_insertionSort rangeLE x)
      (fun r hr => hx r (hperm.subset ((List.perm_insertionSort rangeLE x').subset hr)))

/-- Witness for `merge_algebra` on a concrete list and a transposition of
it. -/
theorem merge_algebra_witness :
    merge_ranges [((2 : ℚ), 3, "b"), ((0 : ℚ), 1, "a")] =
      merge_ranges [((0 : ℚ), 1, "a"), ((2 : ℚ), 3, "b")] ∧
    merge_ranges (merge_ranges [((0 : ℚ), 1, "a"), ((2 : ℚ), 3, "b")]) =
      merge_ranges [((0 : ℚ), 1, "a"), ((2 : ℚ), 3, "b")] :=
  ⟨(merge_algebra [((0 : ℚ), 1, "a"), ((2 : ℚ), 3, "b")]
      [((2 : ℚ), 3, "b"), ((0 : ℚ), 1, "a")] (by decide)
      (List.Perm.swap ((0 : ℚ), 1, "a") ((2 : ℚ), 3, "b") [])).2,
    (merge_algebra [((0 : ℚ), 1, "a"), ((2 : ℚ), 3, "b")]
      [((2 : ℚ), 3, "b"), ((0 : ℚ), 1, "a")] (by decide)
      (List.Perm.swap ((0 : ℚ), 1, "a") ((2 : ℚ), 3, "b") [])).1⟩

/-- The color fold of a range with itself is the identity. -/
theorem absorbColor_self (c : String) : absorbColor c c = c := by
  simp [absorbColor]

/-- C8 (classifier cardinality policy): `classify([])` is `EMPTY`; whenever
merging leaves two or more disjoint ranges the classifier returns `FUZZY`;
merging precedes classification, so two touching ranges classify as one —
`classify([(0, 0.3), (0.3, 1)])` is `FULL` while
`classify([(0.1, 0.3), (0.6, 0.8)])` is `FUZZY`. -/
theorem classifier_cardinality_policy (l t : List TimeRange)
    (r₁ r₂ : TimeRange) (c : String) :
    WLCalCS.from_ranges [] = (WLCalCS.EMPTY, DARK_BACKGROUND_FALLBACK) ∧
    (merge_ranges l = r₁ :: r₂ :: t →
      WLCalCS.from_ranges l = (WLCalCS.FUZZY, DARK_BACKGROUND_FALLBACK)) ∧
    WLCalCS.from_ranges [((1 : ℚ)/10, 3/10, c), ((6 : ℚ)/10, 8/10, c)] =
      (WLCalCS.FUZZY, DARK_BACKGROUND_FALLBACK) ∧
    WLCalCS.from_ranges [((0 : ℚ), 3/10, c), ((3 : ℚ)/10, 1, c)] =
      (WLCalCS.FULL, c) := by
  have hfuzzy : ∀ (l' t' : List TimeRange) (r₁' r₂' : TimeRange),
      merge_ranges l' = r₁' :: r₂' :: t' →
      WLCalCS.from_ranges l' = (WLCalCS.FUZZY, DARK_BACKGROUND_FALLBACK) := by
    intro l' t' r₁' r₂' h
    unfold WLCalCS.from_ranges
    rw [h]
  refine ⟨rfl, hfuzzy l t r₁ r₂, ?_, ?_⟩
  · have hm : merge_ranges [((1 : ℚ)/10, 3/10, c), ((6 : ℚ)/10, 8/10, c)] =
        [((1 : ℚ)/10, 3/10, c), ((6 : ℚ)/10, 8/10, c)] := by
      unfold merge_ranges
      norm_num [List.insertionSort, List.orderedInsert, rangeLE,
        mergeSorted, mergeLoop]
    exact hfuzzy _ [] _ _ hm
  · have hm : merge_ranges [((0 : ℚ), 3/10, c), ((3 : ℚ)/10, 1, c)] =
        [((0 : ℚ), 1, c)] := by
      unfold merge_ranges
      norm_num [List.insertionSort, List.orderedInsert, rangeLE,
        mergeSorted, mergeLoop, absorbColor_self]
    rw [from_ranges_single _ 0 1 c hm]
    exact cs_full 0 1 c (by norm_num) (by norm_num)

/-- Witness for `classifier_cardinality_policy`: a merge that leaves two
disjoint ranges classifies as `FUZZY`. -/
theorem classifier_cardinality_policy_witness :
    WLCalCS.from_ranges [((0 : ℚ), 1, "a"), ((2 : ℚ), 3, "b")] =
      (WLCalCS.FUZZY, DARK_BACKGROUND_FALLBACK) :=
  (classifier_cardinality_policy [((0 : ℚ), 1, "a"), ((2 : ℚ), 3, "b")] []
    ((0 : ℚ), 1, "a") ((2 : ℚ), 3, "b") "x").2.1 (by decide)

/-! Loader theorems (`work_log_list.py`). -/

/-- C1 (stale-result rejection): a fetch result delivered with a captured
offset different from the loader's current offset is discarded
unconditionally — `_add_logs` returns the state unchanged, so the mounted
collection, `logs_offset` and `logs_reached_end` are all untouched. -/
theorem stale_result_rejected (st : LogList) (at_offset : ℕ)
    (reached_end : Bool) (lgs : List Log)
    (h : at_offset ≠ st.logs_offset) :
    add_logs st at_offset reached_end lgs = st := by
  simp [add_logs, h]

/-- Witness for `stale_result_rejected`: a result requested at offset 40
arriving after a reload reset the offset to 0 is not appended. -/
theorem stale_result_rejected_witness :
    add_logs
      (reload_reset
        { logs_only_active := none, logs_paging := true,
          logs_reached_end := false, logs_offset := 40,
          mounted := [{ active := false, id := 0 }], loading := false })
      40 true [{ active := false, id := 7 }] =
    reload_reset
      { logs_only_active := none, logs_paging := true,
        logs_reached_end := false, logs_offset := 40,
        mounted := [{ active := false, id := 0 }], loading := false } :=
  stale_result_rejected _ 40 true [{ active := false, id := 7 }] (by decide)

/-- C7 (exhaustion is sticky until reload): once `logs_reached_end` holds,
a load trigger issues no fetch and changes no state; it stays that way
until `reload_logs`, whose reset puts the loader at offset 0 with
`reached_end` false before loading again, so the reload's fetch is issued
at offset 0. The last two conjuncts record how `EXHAUSTED` is entered: the
active-only feed always sets `reached_end`, and a paged fetch sets it
exactly when the page is shorter than the requested `limit`. -/
theorem exhausted_is_sticky (st : LogList) (env : FetchEnv) :
    (st.logs_reached_end = true → load_more_logs st env = (st, none)) ∧
    (reload_reset st).logs_offset = 0 ∧
    (reload_reset st).logs_reached_end = false ∧
    reload_logs st env = load_more_logs (reload_reset st) env ∧
    (reload_logs st env).2 = some 0 ∧
    (st.logs_reached_end = false → st.logs_only_active = some true →
      (load_more_logs st env).1.logs_reached_end = true) ∧
    (st.logs_reached_end = false → st.logs_only_active ≠ some true →
      st.logs_paging = true → env.page.length < limit →
      (load_more_logs st env).1.logs_reached_end = true) := by
  refine ⟨fun h => by simp [load_more_logs, h], rfl, rfl, rfl, ?_, ?_, ?_⟩
  · show (load_more_logs (reload_reset st) env).2 = some 0
    unfold load_more_logs
    simp only [reload_reset]
    split_ifs <;> simp_all
  · intro h1 h2
    simp [load_more_logs, h1, h2, add_logs]
  · intro h1 h2 h3 h4
    simp [load_more_logs, h1, h2, h3, add_logs, h4]

/-- Witness for `exhausted_is_sticky` at a concrete exhausted state. -/
theorem exhausted_is_sticky_witness :
    load_more_logs
      { logs_only_active := none, logs_paging := true,
        logs_reached_end := true, logs_offset := 20,
        mounted := [{ active := false, id := 3 }], loading := false }
      { active_log := none, all_logs := [], page := [{ active := false, id := 9 }] } =
      ({ logs_only_active := none, logs_paging := true,
         logs_reached_end := true, logs_offset := 20,
         mounted := [{ active := false, id := 3 }], loading := false }, none) ∧
    (reload_logs
      { logs_only_active := none, logs_paging := true,
        logs_reached_end := true, logs_offset := 20,
        mounted := [{ active := false, id := 3 }], loading := false }
      { active_log := none, all_logs := [], page := [{ active := false, id := 9 }] }).2 =
      some 0 :=
  ⟨(exhausted_is_sticky _ _).1 rfl, (exhausted_is_sticky _ _).2.2.2.2.1⟩

/-- One paged load step on a fetchable paged no-filter loader: the page is
appended at the recorded offset, the offset advances by the page length,
and `reached_end` records whether the page was short. -/
theorem load_page_step (st : LogList) (p : List Log)
    (hoa : st.logs_only_active = none) (hpg : st.logs_paging = true)
    (hre : st.logs_reached_end = false) :
    (load_more_logs st { active_log := none, all_logs := [], page := p }).1 =
      { st with
        logs_offset := st.logs_offset + p.length
        logs_reached_end := decide (p.length < limit)
        mounted := st.mounted ++ p
        loading := false } := by
  simp [load_more_logs, hre, hoa, hpg, add_logs]

/-- The fold `run` distributes over list append. -/
theorem run_append (xs ys : List (List Log)) :
    ∀ st : LogList, run st (xs ++ ys) = run (run st xs) ys := by
  induction xs with
  | nil => intro st; rfl
  | cons p ps ih => intro st; exact ih _

/-- Running any number of full-size pages keeps the loader fetchable and
accounts every page exactly once. -/
theorem run_full (full : List (List Log)) :
    (∀ p ∈ full, p.length = limit) →
    ∀ st : LogList, st.logs_only_active = none → st.logs_paging = true →
      st.logs_reached_end = false →
      (run st full).logs_only_active = none ∧
      (run st full).logs_paging = true ∧
      (run st full).logs_reached_end = false ∧
      (run st full).logs_offset = st.logs_offset + (full.map List.length).sum ∧
      (run st full).mounted = st.mounted ++ full.flatten := by
  induction full with
  | nil => intro _ st hoa hpg hre; exact ⟨hoa, hpg, hre, by simp [run], by simp [run]⟩
  | cons p ps ih =>
    intro hfull st hoa hpg hre
    have hp : p.length = limit := hfull p (List.mem_cons_self _ _)
    have hstep := load_page_step st p hoa hpg hre
    have hrun : run st (p :: ps) =
        run { st with
          logs_offset := st.logs_offset + p.length
          logs_reached_end := decide (p.length < limit)
          mounted := st.mounted ++ p
          loading := false } ps := by
      show run (load_more_logs st { active_log := none, all_logs := [], page := p }).1 ps =
        _
      rw [hstep]
    have hre' : decide (p.length < limit) = false := by simp [hp]
    rw [hrun, hre']
    obtain ⟨h1, h2, h3, h4, h5⟩ :=
      ih (fun q hq => hfull q (List.mem_cons_of_mem _ hq))
        { st with
          logs_offset := st.logs_offset + p.length
          logs_reached_end := false
          mounted := st.mounted ++ p
          loading := false } (by simp [hoa]) (by simp [hpg]) rfl
    refine ⟨h1, h2, h3, ?_, ?_⟩
    · rw [h4]; simp [Nat.add_assoc]
    · rw [h5]; simp

/-- C4 (pagination exactly-once accounting): starting from a fetchable
paged no-filter loader, a run of pages of exactly the requested size
followed by one shorter page keeps the loader fetchable
(`reached_end = false`) after every full page, makes it exhausted on the
short page, and after every prefix of the run the mounted collection is
the initial collection followed by the concatenation of the accepted pages
— each exactly once — while the offset has advanced by the sum of their
lengths. -/
theorem loader_pagination_exactly_once (full : List (List Log))
    (last : List Log) (st : LogList)
    (hfull : ∀ p ∈ full, p.length = limit) (hlast : last.length < limit)
    (hoa : st.logs_only_active = none) (hpg : st.logs_paging = true)
    (hre : st.logs_reached_end = false) :
    (∀ k, k ≤ full.length →
      (run st ((full ++ [last]).take k)).logs_reached_end = false) ∧
    (run st (full ++ [last])).logs_reached_end = true ∧
    (∀ k, k ≤ full.length + 1 →
      (run st ((full ++ [last]).take k)).mounted =
        st.mounted ++ ((full ++ [last]).take k).flatten ∧
      (run st ((full ++ [last]).take k)).logs_offset =
        st.logs_offset + (((full ++ [last]).take k).map List.length).sum) := by
  have htake : ∀ k, k ≤ full.length → (full ++ [last]).take k = full.take k :=
    fun k hk => List.take_append_of_le_length hk
  have hfull' : ∀ k, ∀ p ∈ full.take k, p.length = limit :=
    fun k p hp => hfull p ((List.take_sublist k full).subset hp)
  have hlaststep := fun st' hoa' hpg' hre' => load_page_step st' last hoa' hpg' hre'
  have hall : run st (full ++ [last]) =
      run (run st full) [last] := run_append full [last] st
  obtain ⟨g1, g2, g3, g4, g5⟩ := run_full full hfull st hoa hpg hre
  have hlastd : decide (last.length < limit) = true := by simp [hlast]
  have hfinal : run st (full ++ [last]) =
      { run st full with
        logs_offset := (run st full).logs_offset + last.length
        logs_reached_end := true
        mounted := (run st full).mounted ++ last
        loading := false } := by
    rw [hall]
    show run (load_more_logs (run st full)
      { active_log := none, all_logs := [], page := last }).1 [] = _
    rw [load_page_step (run st full) last g1 g2 g3, hlastd]
    rfl
  refine ⟨?_, ?_, ?_⟩
  · intro k hk
    rw [htake k hk]
    exact (run_full (full.take k) (hfull' k) st hoa hpg hre).2.2.1
  · rw [hfinal]
  · intro k hk
    rcases Nat.lt_or_ge k (full.length + 1) with hlt | hge
    · have hk' : k ≤ full.length := Nat.lt_succ_iff.mp hlt
      rw [htake k hk']
      obtain ⟨_, _, _, h4, h5⟩ := run_full (full.take k) (hfull' k) st hoa hpg hre
      exact ⟨h5, h4⟩
    · have hk' : k = full.length + 1 := le_antisymm hk hge
      subst hk'
      have hlen : full.length + 1 = (full ++ [last]).length := by simp
      rw [hlen, List.take_length, hfinal]
      constructor
      · show (run st full).mounted ++ last = _
        rw [g5]
        simp [List.flatten_append, List.append_assoc]
      · show (run st full).logs_offset + last.length = _
        rw [g4]
        simp [Nat.add_assoc]

/-- Witness for `loader_pagination_exactly_once`: one page of ten items
then a short page of one item exhausts the loader. -/
theorem loader_pagination_exactly_once_witness :
    (run onlyActiveNoneList
      [(List.range 10).map (fun i => { active := false, id := i }),
        [{ active := false, id := 100 }]]).logs_reached_end = true ∧
    (run onlyActiveNoneList
      [(List.range 10).map (fun i => { active := false, id := i }),
        [{ active := false, id := 100 }]]).logs_offset = 11 := by
  have h := loader_pagination_exactly_once
    [(List.range 10).map (fun i => ({ active := false, id := i } : Log))]
    [{ active := false, id := 100 }] onlyActiveNoneList
    (by decide) (by decide) rfl rfl rfl
  refine ⟨h.2.1, ?_⟩
  have h2 := (h.2.2 2 (by decide)).2
  simpa using h2

/-- One paged load step on a fetchable paged loader with
`only_active = False`: the raw page advances the offset in full while only
its non-active entries are mounted. -/
theorem load_page_step_filtered (st : LogList) (p : List Log)
    (hoa : st.logs_only_active = some false) (hpg : st.logs_paging = true)
    (hre : st.logs_reached_end = false) :
    (load_more_logs st { active_log := none, all_logs := [], page := p }).1 =
      { st with
        logs_offset := st.logs_offset + p.length
        logs_reached_end := decide (p.length < limit)
        mounted := st.mounted ++ p.filter (fun lg => !lg.active)
        loading := false } := by
  simp [load_more_logs, hre, hoa, hpg, add_logs]

/-- A slice of the feed taken at the end of the already-fetched prefix
extends that prefix. -/
theorem take_slice (feed : List Log) (o lim : ℕ) :
    feed.take (o + (list_page feed o lim).length) =
      feed.take o ++ list_page feed o lim := by
  rw [List.take_add feed o (list_page feed o lim).length]
  congr 1
  show (feed.drop o).take ((feed.drop o).take lim).length = (feed.drop o).take lim
  rw [List.length_take]
  exact List.take_eq_take.mpr (by rw [min_assoc, min_self])

/-- Invariant of the feed-driven run: the offset counts the raw items
fetched so far, those raw items are exactly the first `offset` entries of
the feed, and the mounted widgets are their non-active entries. -/
theorem runFeed_invariant (feed : List Log) :
    ∀ (n : ℕ) (s : LogList × List Log),
      s.1.logs_only_active = some false → s.1.logs_paging = true →
      s.1.logs_offset = s.2.length →
      s.2 = feed.take s.1.logs_offset →
      s.1.mounted = s.2.filter (fun lg => !lg.active) →
      (runFeed feed n s).1.logs_only_active = some false ∧
      (runFeed feed n s).1.logs_paging = true ∧
      (runFeed feed n s).1.logs_offset = (runFeed feed n s).2.length ∧
      (runFeed feed n s).2 = feed.take (runFeed feed n s).1.logs_offset ∧
      (runFeed feed n s).1.mounted =
        (runFeed feed n s).2.filter (fun lg => !lg.active) := by
  intro n
  induction n with
  | zero => intro s h1 h2 h3 h4 h5; exact ⟨h1, h2, h3, h4, h5⟩
  | succ n ih =>
    intro s h1 h2 h3 h4 h5
    have hrun : runFeed feed (n + 1) s = runFeed feed n (load_step feed s) := rfl
    rw [hrun]
    by_cases hre : s.1.logs_reached_end = true
    · have hstep : load_step feed s = s := by
        unfold load_step
        rw [if_pos hre]
      rw [hstep]
      exact ih s h1 h2 h3 h4 h5
    · have hre' : s.1.logs_reached_end = false := by
        revert hre; cases s.1.logs_reached_end <;> simp
      have hstep : load_step feed s =
          ((load_more_logs s.1
            { active_log := none, all_logs := [],
              page := list_page feed s.1.logs_offset limit }).1,
            s.2 ++ list_page feed s.1.logs_offset limit) := by
        unfold load_step
        rw [if_neg (by rw [hre']; exact Bool.false_ne_true)]
      rw [hstep, load_page_step_filtered s.1 _ h1 h2 hre']
      apply ih
      · exact h1
      · exact h2
      · show s.1.logs_offset + (list_page feed s.1.logs_offset limit).length =
          (s.2 ++ list_page feed s.1.logs_offset limit).length
        rw [List.length_append, h3]
      · show s.2 ++ list_page feed s.1.logs_offset limit =
          feed.take (s.1.logs_offset + (list_page feed s.1.logs_offset limit).length)
        rw [take_slice feed s.1.logs_offset limit, h4]
      · show s.1.mounted ++ (list_page feed s.1.logs_offset limit).filter (fun lg => !lg.active) =
          (s.2 ++ list_page feed s.1.logs_offset limit).filter (fun lg => !lg.active)
        rw [List.filter_append, h5]

/-- C10 (offset counts raw items, not displayed items): along any
feed-driven run of the `only_active=False` paged loader, the offset always
equals the number of raw items fetched since the reset, those raw items
are exactly the first `offset` feed entries — fetched once each, none
skipped — and the mounted collection is their non-active subsequence, so
the displayed count never exceeds the pagination offset. -/
theorem offset_counts_raw_items (feed : List Log) (n : ℕ) :
    (runFeed feed n (onlyStoppedList, [])).1.logs_offset =
      (runFeed feed n (onlyStoppedList, [])).2.length ∧
    (runFeed feed n (onlyStoppedList, [])).2 =
      feed.take (runFeed feed n (onlyStoppedList, [])).1.logs_offset ∧
    (runFeed feed n (onlyStoppedList, [])).1.mounted =
      (runFeed feed n (onlyStoppedList, [])).2.filter (fun lg => !lg.active) ∧
    (runFeed feed n (onlyStoppedList, [])).1.mounted.length ≤
      (runFeed feed n (onlyStoppedList, [])).1.logs_offset := by
  obtain ⟨h1, h2, h3, h4, h5⟩ :=
    runFeed_invariant feed n (onlyStoppedList, []) rfl rfl rfl (by simp [onlyStoppedList]) rfl
  refine ⟨h3, h4, h5, ?_⟩
  rw [h5, h3]
  exact List.length_filter_le _ _

/-! Label-placement theorems (`calendar.py`, `WorkLogCalendarDay.render`). -/

/-- The label scan never changes the number of rows. -/
theorem scanPlace_length (nm col : String) :
    ∀ (m : Bool) (l : List LabelSlot), (scanPlace m nm col l).length = l.length := by
  intro m l
  induction l generalizing m with
  | nil => rfl
  | cons a rest ih =>
    cases a with
    | none => rfl
    | some s => exact congrArg Nat.succ (ih true)

/-- When every row below the start is occupied, the scan drops the label
and leaves every row unchanged. -/
theorem scanPlace_no_free (nm col : String) :
    ∀ (m : Bool) (l : List LabelSlot), (∀ s ∈ l, s.isSome) →
      scanPlace m nm col l = l := by
  intro m l
  induction l generalizing m with
  | nil => intro _; rfl
  | cons a rest ih =>
    intro h
    cases a with
    | none => exact absurd (h none (List.mem_cons_self _ _)) (by simp)
    | some s =>
      show some s :: scanPlace true nm col rest = some s :: rest
      rw [ih true (fun t ht => h t (List.mem_cons_of_mem _ ht))]

/-- The scan writes to the first free row and nowhere else, and its moved
flag records whether any occupied row was skipped. -/
theorem scanPlace_set (nm col : String) :
    ∀ (l : List LabelSlot) (m : Bool) (j : ℕ), l[j]? = some none →
      (∀ k, k < j → ∃ s, l[k]? = some (some s)) →
      scanPlace m nm col l = l.set j (some ((m || decide (0 < j)), nm, col)) := by
  intro l
  induction l with
  | nil => intro m j hj _; simp at hj
  | cons a rest ih =>
    intro m j hj hocc
    cases a with
    | none =>
      cases j with
      | zero => simp [scanPlace]
      | succ j' =>
        obtain ⟨s, hs⟩ := hocc 0 (Nat.succ_pos j')
        simp at hs
    | some t =>
      cases j with
      | zero => simp at hj
      | succ j' =>
        have hj' : rest[j']? = some none := by
          rw [← List.getElem?_cons_succ (a := some t)]
          exact hj
        have hocc' : ∀ k, k < j' → ∃ s, rest[k]? = some (some s) := by
          intro k hk
          obtain ⟨s, hs⟩ := hocc (k + 1) (Nat.succ_lt_succ hk)
          rw [List.getElem?_cons_succ] at hs
          exact ⟨s, hs⟩
        show some t :: scanPlace true nm col rest = _
        rw [ih true j' hj' hocc']
        simp

/-- Setting an index past a split point commutes with the split. -/
theorem take_set_drop {α : Type} :
    ∀ (ist : ℕ) (j : ℕ) (l : List α) (x : α), ist ≤ j →
      l.take ist ++ (l.drop ist).set (j - ist) x = l.set j x := by
  intro ist
  induction ist with
  | zero => intro j l x _; simp
  | succ ist ih =>
    intro j l x hj
    cases l with
    | nil => simp
    | cons a l' =>
      cases j with
      | zero => omega
      | succ j' =>
        show a :: (l'.take ist ++ (l'.drop ist).set (j' + 1 - (ist + 1)) x) =
          a :: l'.set j' x
        rw [Nat.succ_sub_succ, ih j' l' x (Nat.succ_le_succ_iff.mp hj)]

/-- C6 (label placement): each label is placed by scanning downward from
the row `ceil(rowStart)` (after clamping) to the first free row; every
already occupied row is left unchanged, so a placed label is never
overwritten and each row keeps at most one label; the moved flag is set
exactly when at least one occupied row was skipped; and when every row
from the start row to the grid bottom is occupied the label is silently
dropped. -/
theorem label_placement (lines : List LabelSlot) (rstart : ℚ)
    (nm col : String) (ist : ℕ) (hist : ist = labelRow lines.length rstart) :
    (placeLabel lines ist nm col).length = lines.length ∧
    (∀ (i : ℕ) (s : Bool × String × String), lines[i]? = some (some s) →
      (placeLabel lines ist nm col)[i]? = some (some s)) ∧
    ((∀ i : ℕ, ist ≤ i → i < lines.length →
        ∃ s : Bool × String × String, lines[i]? = some (some s)) →
      placeLabel lines ist nm col = lines) ∧
    (∀ j : ℕ, ist ≤ j → lines[j]? = some none →
      (∀ i : ℕ, ist ≤ i → i < j →
        ∃ s : Bool × String × String, lines[i]? = some (some s)) →
      placeLabel lines ist nm col =
        lines.set j (some (decide (ist < j), nm, col))) := by
  refine ⟨?_, ?_, ?_, ?_⟩
  · show (lines.take ist ++ scanPlace false nm col (lines.drop ist)).length =
      lines.length
    rw [List.length_append, List.length_take, scanPlace_length, List.length_drop]
    omega
  · intro i s hs
    have hilen : i < lines.length := (List.getElem?_eq_some.mp hs).1
    show (lines.take ist ++ scanPlace false nm col (lines.drop ist))[i]? =
      some (some s)
    by_cases hi : i < ist
    · rw [List.getElem?_append, if_pos (by rw [List.length_take]; omega),
        List.getElem?_take, if_pos hi]
      exact hs
    · have hlt : ist ≤ lines.length := by omega
      rw [List.getElem?_append,
        if_neg (by rw [List.length_take]; omega)]
      have hidx : i - (lines.take ist).length = i - ist := by
        rw [List.length_take]; omega
      rw [hidx]
      -- the occupied slot survives the scan
      have key : ∀ (l : List LabelSlot) (m : Bool) (k : ℕ) (s : Bool × String × String),
          l[k]? = some (some s) →
          (scanPlace m nm col l)[k]? = some (some s) := by
        intro l
        induction l with
        | nil => intro m k s h; simp at h
        | cons a rest ihl =>
          intro m k s h
          cases a with
          | none =>
            cases k with
            | zero => simp at h
            | succ k' =>
              rw [List.getElem?_cons_succ] at h
              show (some (m, nm, col) :: rest)[k' + 1]? = some (some s)
              rw [List.getElem?_cons_succ]
              exact h
          | some t =>
            cases k with
            | zero =>
              simp at h
              show ((some t :: scanPlace true nm col rest))[0]? = some (some s)
              simp [h]
            | succ k' =>
              rw [List.getElem?_cons_succ] at h
              show ((some t :: scanPlace true nm col rest))[k' + 1]? = some (some s)
              rw [List.getElem?_cons_succ]
              exact ihl true k' s h
      apply key
      rw [List.getElem?_drop]
      have : ist + (i - ist) = i := by omega
      rw [this]
      exact hs
  · intro hocc
    have hall : ∀ s ∈ lines.drop ist, s.isSome := by
      intro s hs
      obtain ⟨k, hk⟩ := List.mem_iff_getElem?.mp hs
      rw [List.getElem?_drop] at hk
      have hklen : ist + k < lines.length := (List.getElem?_eq_some.mp hk).1
      obtain ⟨t, ht⟩ := hocc (ist + k) (Nat.le_add_right _ _) hklen
      rw [ht] at hk
      cases hk
      rfl
    show lines.take ist ++ scanPlace false nm col (lines.drop ist) = lines
    rw [scanPlace_no_free nm col false _ hall, List.take_append_drop]
  · intro j hj hfree hocc
    have hjlen : j < lines.length := (List.getElem?_eq_some.mp hfree).1
    have hfree' : (lines.drop ist)[j - ist]? = some none := by
      rw [List.getElem?_drop]
      have : ist + (j - ist) = j := by omega
      rw [this]
      exact hfree
    have hocc' : ∀ k, k < j - ist → ∃ s, (lines.drop ist)[k]? = some (some s) := by
      intro k hk
      rw [List.getElem?_drop]
      exact hocc (ist + k) (Nat.le_add_right _ _) (by omega)
    show lines.take ist ++ scanPlace false nm col (lines.drop ist) = _
    rw [scanPlace_set nm col (lines.drop ist) false (j - ist) hfree' hocc']
    have hflag : (false || decide (0 < j - ist)) = decide (ist < j) := by
      rw [Bool.false_or]
      exact decide_eq_decide.mpr (by omega)
    rw [hflag, take_set_drop ist j lines _ hj]

/-- Witness for `label_placement`: with row 0 occupied, a label starting at
row 0 lands at row 1 and is flagged moved. -/
theorem label_placement_witness :
    placeLabel [some (false, "a", "c1"), none] 0 "b" "c2" =
      [some (false, "a", "c1"), some (true, "b", "c2")] := by
  have h := (label_placement [some (false, "a", "c1"), none] 0 "b" "c2" 0
    (by norm_num [labelRow])).2.2.2 1 (by omega) rfl
    (fun i h1 h2 => by
      interval_cases i
      exact ⟨(false, "a", "c1"), rfl⟩)
  simpa using h

/-! Range-bar theorem (`range_bar.py`). -/

/-- C5 (rendering totality, refuted for the range bar): the range-bar cell
buffer construction is not total. With width `2` and the single
well-formed range `(0, 3/4)` — `0 ≤ start ≤ end ≤ 1` — the scaled end is
`1.5`, its fractional overflow `0.5` triggers the `content[int(end) + 1]`
write, and that index is `2`: one past the last cell of the width-2
buffer. The construction aborts (`none` here, an `IndexError` in Python),
so rendering can raise on well-formed in-memory state. The day-column
renderer is not the failing component; the slip is the asymmetry between
`content[start]` and `content[end + 1]` in `RangeBar.__rich_console__`. -/
theorem rangeBar_overflow_out_of_bounds :
    rangeBarContent 2 [((0 : ℚ), 3/4)] = none := by
  have h1 : Int.fract ((3 : ℚ)/2) = 1/2 := by norm_num [Int.fract]
  have h2 : pyInt ((3 : ℚ)/2) = 1 := by norm_num [pyInt]
  simp [rangeBarContent, applyRange, setCell]
  norm_num [h1, h2]

end MeTasking
